import Mathlib

/-!
Verification of the rosedb key-value store (flower-corp/rosedb).

The development shallowly embeds the hash datatype operations of
`db_hash.go`, the list datatype operations of the rosedb list file, and
the B-tree string index wrapper. Byte slices become `List Nat`, the Go
maps and radix tries become association lists, 32-bit sequence
arithmetic is `Nat` arithmetic taken modulo `2 ^ 32`, and the fallible
write-ahead-log append is threaded through the operations as explicit
`Bool` success flags consumed in program order (one flag per append).
The in-memory indexes are modelled in value-in-memory mode, where the
index node holds the value bytes themselves.
-/

/-- Byte strings are lists of naturals; genuine Go byte slices hold
values below 256, and every place whose result depends on the byte
range reduces modulo 256 exactly where the Go code reads raw bytes. -/
abbrev Bytes := List Nat

/-- Errors surfaced by the embedded operations, mirroring the rosedb
error values (ErrKeyNotFound, ErrWrongIndex, an IO write failure). -/
inductive RErr where
  | keyNotFound
  | wrongIndex
  | ioError
deriving DecidableEq

/-- Index mode of the store: key-only (values read back from the log
file) or key-value (values held in memory), from the rosedb config. -/
inductive IdxMode where
  | keyOnly
  | keyValueMem
deriving DecidableEq

/-- Modelled from the spec: lookup in a Go map / adaptive radix tree
(the ds/art package is not part of the sources); `get(iKey) → node?`. -/
def assocGet {α : Type} (k : Bytes) : List (Bytes × α) → Option α
  | [] => none
  | (k2, v) :: t => if k2 = k then some v else assocGet k t

/-- Modelled from the spec: insert-or-replace in a Go map / radix tree
(`put(iKey, node)`); replaces the binding in place or appends it. -/
def assocPut {α : Type} (k : Bytes) (v : α) : List (Bytes × α) → List (Bytes × α)
  | [] => [(k, v)]
  | (k2, v2) :: t => if k2 = k then (k, v) :: t else (k2, v2) :: assocPut k v t

/-- Modelled from the spec: deletion from a Go map / radix tree
(`delete(iKey)`); removes the binding for the key when present. -/
def assocDel {α : Type} (k : Bytes) : List (Bytes × α) → List (Bytes × α)
  | [] => []
  | (k2, v2) :: t => if k2 = k then t else (k2, v2) :: assocDel k t

/-- A hash index: user key to (field to value) association, the
value-in-memory shape of `db.hashIndex.indexes` in db_hash.go. -/
abbrev HashIdx := List (Bytes × List (Bytes × Bytes))

/-- Modelled from the spec: ds/hash HGet, reading the node stored for
a field of a hash key (value-in-memory mode keeps the value bytes). -/
def hashHGet (st : HashIdx) (k f : Bytes) : Option Bytes :=
  (assocGet k st).bind fun m => assocGet f m

/-- Modelled from the spec: ds/hash HSetIndexer as called by
db_hash.go; inserts or replaces a field binding, returning 1 when the
field is newly inserted and 0 otherwise; with onlyNotExist set it
leaves an existing field untouched. -/
def hashHSetIndexer (st : HashIdx) (k f v : Bytes) (onlyNotExist : Bool) :
    HashIdx × Nat :=
  let m := (assocGet k st).getD []
  match assocGet f m with
  | some _ =>
      if onlyNotExist then (st, 0) else (assocPut k (assocPut f v m) st, 0)
  | none => (assocPut k (assocPut f v m) st, 1)

/-- Modelled from the spec: ds/hash HDel as called by db_hash.go;
removes a field binding, returning 1 when the field existed. -/
def hashHDelIndexer (st : HashIdx) (k f : Bytes) : HashIdx × Nat :=
  let m := (assocGet k st).getD []
  match assocGet f m with
  | some _ => (assocPut k (assocDel f m) st, 1)
  | none => (st, 0)

/-- HSet from db_hash.go: in key-value mode an existing identical value
short-circuits, otherwise the entry is appended to the log (success
given by the flag) and only then the index is updated; checkKeyValue is
modelled from the spec as accepting the inputs. -/
def HSet (mode : IdxMode) (st : HashIdx) (k f v : Bytes) (app : Bool) :
    HashIdx × Nat × Option RErr :=
  if mode = IdxMode.keyValueMem ∧ (hashHGet st k f).getD [] = v then (st, 0, none)
  else if app then
    let r := hashHSetIndexer st k f v false
    (r.1, r.2, none)
  else (st, 0, some RErr.ioError)

/-- HSetNx from db_hash.go: the index is updated first, and the entry
is appended to the log only when the field was newly inserted; a failed
append is reported after the index update already happened. -/
def HSetNx (st : HashIdx) (k f v : Bytes) (app : Bool) :
    HashIdx × Nat × Option RErr :=
  let r := hashHSetIndexer st k f v true
  if r.2 = 1 then
    if app then (r.1, 1, none) else (r.1, 1, some RErr.ioError)
  else (st, 0, none)

/-- HDel from db_hash.go: for each field, the index deletion happens in
the loop condition and the tombstone append follows; on a failed append
the loop stops with the count of fully processed fields. Append
outcomes are consumed from the list, defaulting to success. -/
def HDel (st : HashIdx) (k : Bytes) : List Bytes → List Bool → HashIdx × Nat × Option RErr
  | [], _ => (st, 0, none)
  | f :: fs, apps =>
    let d := hashHDelIndexer st k f
    if d.2 = 1 then
      if apps.headD true then
        let r := HDel d.1 k fs apps.tail
        (r.1, r.2.1 + 1, r.2.2)
      else (d.1, 0, some RErr.ioError)
    else HDel st k fs apps

/-- Modelled from the spec: the initial list sequence number, 2^31. -/
def initialListSeq : Nat := 2147483648

/-- The uint32 modulus. -/
def u32 : Nat := 4294967296

/-- Little-endian uint32 write, binary.LittleEndian.PutUint32. -/
def putUint32LE (n : Nat) : Bytes :=
  [n % 256, n / 256 % 256, n / 65536 % 256, n / 16777216 % 256]

/-- Little-endian uint32 read, binary.LittleEndian.Uint32; reads the
first four bytes (reducing each modulo 256 as genuine bytes are). -/
def leUint32 (b : Bytes) : Nat :=
  b.getD 0 0 % 256 + 256 * (b.getD 1 0 % 256) + 65536 * (b.getD 2 0 % 256) +
    16777216 * (b.getD 3 0 % 256)

/-- encodeListKey: the 4-byte little-endian sequence number followed by
the user key. -/
def encodeListKey (k : Bytes) (seq : Nat) : Bytes :=
  putUint32LE seq ++ k

/-- decodeListKey: exact inverse layout, key then sequence number. -/
def decodeListKey (buf : Bytes) : Bytes × Nat :=
  (buf.drop 4, leUint32 (buf.take 4))

/-- The body of a list metadata entry: headSeq then tailSeq, each four
little-endian bytes, as written by saveListMeta. -/
def metaBytes (headSeq tailSeq : Nat) : Bytes :=
  putUint32LE headSeq ++ putUint32LE tailSeq

/-- The per-key radix tries of the list index (`db.listIndex.trees`):
user key to trie, each trie mapping internal encoded keys (and the user
key itself for the metadata entry) to value bytes. -/
abbrev Trees := List (Bytes × List (Bytes × Bytes))

/-- listMeta from the list file: decode the metadata entry stored under
the user key, defaulting to the initial sequences when the entry is
absent or empty; getVal is modelled from the spec in value-in-memory
mode as the trie lookup. -/
def listMetaF (tree : List (Bytes × Bytes)) (k : Bytes) : Nat × Nat :=
  match assocGet k tree with
  | none => (initialListSeq, initialListSeq + 1)
  | some v =>
    if v = [] then (initialListSeq, initialListSeq + 1)
    else (leUint32 (v.take 4), leUint32 (v.drop 4))

/-- The metadata pair of a key as read through the trees map. -/
def metaOf (st : Trees) (k : Bytes) : Nat × Nat :=
  listMetaF ((assocGet k st).getD []) k

/-- pushInternal from the list file: read the meta, write the element
entry at headSeq (left) or tailSeq (right), update the trie, then move
the boundary and persist the new meta; the two append outcomes are the
two flags, and writeLogEntry/updateIndexTree are modelled from the spec
(value-in-memory trie update, fallible append). -/
def pushInternal (st : Trees) (k v : Bytes) (isLeft : Bool) (a1 a2 : Bool) :
    Trees × Option RErr :=
  let tree := (assocGet k st).getD []
  let m := listMetaF tree k
  let seq := if isLeft then m.1 else m.2
  let ek := encodeListKey k seq
  if a1 then
    let tree1 := assocPut ek v tree
    let h2 := if isLeft then (m.1 + 4294967295) % u32 else m.1
    let t2 := if isLeft then m.2 else (m.2 + 1) % u32
    if a2 then
      (assocPut k (assocPut k (metaBytes h2 t2) tree1) st, none)
    else (assocPut k tree1 st, some RErr.ioError)
  else (st, some RErr.ioError)

/-- popInternal from the list file: a missing trie returns a nil value
and nil error; an empty list resets non-initial meta (append failure
ignored) and returns nil; otherwise the boundary element is read, a
tombstone appended, the element removed from the trie, the boundary
moved and the meta persisted. Flags are the tombstone (or ignored
reset) append and the meta append. -/
def popInternal (st : Trees) (k : Bytes) (isLeft : Bool) (a1 a2 : Bool) :
    Trees × Option Bytes × Option RErr :=
  match assocGet k st with
  | none => (st, none, none)
  | some tree =>
    let m := listMetaF tree k
    let size := (m.2 + u32 - (m.1 + 1)) % u32
    if size = 0 then
      if m.1 = initialListSeq ∧ m.2 = initialListSeq + 1 then (st, none, none)
      else if a1 then
        (assocPut k (assocPut k (metaBytes initialListSeq (initialListSeq + 1)) tree) st,
          none, none)
      else (st, none, none)
    else
      let seq := if isLeft then (m.1 + 1) % u32 else (m.2 + u32 - 1) % u32
      let ek := encodeListKey k seq
      match assocGet ek tree with
      | none => (st, none, some RErr.keyNotFound)
      | some v =>
        if a1 then
          let tree1 := assocDel ek tree
          let h2 := if isLeft then (m.1 + 1) % u32 else m.1
          let t2 := if isLeft then m.2 else (m.2 + u32 - 1) % u32
          if a2 then
            (assocPut k (assocPut k (metaBytes h2 t2) tree1) st, some v, none)
          else (assocPut k tree1 st, none, some RErr.ioError)
        else (st, none, some RErr.ioError)

/-- LPush for a single value: create the trie when absent, then push at
the head with both appends succeeding. -/
def LPush1 (st : Trees) (k v : Bytes) : Trees :=
  let st1 := if (assocGet k st).isSome then st else assocPut k [] st
  (pushInternal st1 k v true true true).1

/-- RPush for a single value: create the trie when absent, then push at
the tail with both appends succeeding. -/
def RPush1 (st : Trees) (k v : Bytes) : Trees :=
  let st1 := if (assocGet k st).isSome then st else assocPut k [] st
  (pushInternal st1 k v false true true).1

/-- LPushX for a single value: ErrKeyNotFound when the trie is absent,
otherwise a head push. -/
def LPushX1 (st : Trees) (k v : Bytes) : Trees × Option RErr :=
  if (assocGet k st).isSome then pushInternal st k v true true true
  else (st, some RErr.keyNotFound)

/-- RPushX for a single value: ErrKeyNotFound when the trie is absent,
otherwise a tail push. -/
def RPushX1 (st : Trees) (k v : Bytes) : Trees × Option RErr :=
  if (assocGet k st).isSome then pushInternal st k v false true true
  else (st, some RErr.keyNotFound)

/-- LPop: popInternal at the head with appends succeeding. -/
def LPop (st : Trees) (k : Bytes) : Trees × Option Bytes × Option RErr :=
  popInternal st k true true true

/-- RPop: popInternal at the tail with appends succeeding. -/
def RPop (st : Trees) (k : Bytes) : Trees × Option Bytes × Option RErr :=
  popInternal st k false true true

/-- LLen: zero for an absent trie, otherwise the uint32 difference
tailSeq - headSeq - 1 converted to a (non-negative) Go int. -/
def LLen (st : Trees) (k : Bytes) : Int :=
  match assocGet k st with
  | none => 0
  | some tree =>
    let m := listMetaF tree k
    ((m.2 + u32 - (m.1 + 1)) % u32 : Nat)

/-- listSequence: logical index to physical sequence, headSeq+index+1
for a non-negative index and tailSeq-(-index) in uint32 arithmetic for
a negative one (Go converts the int to uint32, hence the mod). -/
def listSequence (headSeq tailSeq : Nat) (index : Int) : Nat :=
  if 0 ≤ index then (headSeq + index.toNat % u32 + 1) % u32
  else (tailSeq + (u32 - (-index).toNat % u32)) % u32

/-- LIndex: nil value and nil error for an absent trie; a sequence on
or outside the meta boundaries yields ErrWrongIndex; otherwise the
element is read from the trie. -/
def LIndex (st : Trees) (k : Bytes) (index : Int) : Option Bytes × Option RErr :=
  match assocGet k st with
  | none => (none, none)
  | some tree =>
    let m := listMetaF tree k
    let seq := listSequence m.1 m.2 index
    if m.2 ≤ seq ∨ seq ≤ m.1 then (none, some RErr.wrongIndex)
    else
      match assocGet (encodeListKey k seq) tree with
      | none => (none, some RErr.keyNotFound)
      | some v => (some v, none)

/-- LSet: ErrKeyNotFound for an absent trie, ErrWrongIndex outside the
boundaries, otherwise append the entry (flag) and update the trie. -/
def LSet (st : Trees) (k : Bytes) (index : Int) (v : Bytes) (a1 : Bool) :
    Trees × Option RErr :=
  match assocGet k st with
  | none => (st, some RErr.keyNotFound)
  | some tree =>
    let m := listMetaF tree k
    let seq := listSequence m.1 m.2 index
    if m.2 ≤ seq ∨ seq ≤ m.1 then (st, some RErr.wrongIndex)
    else if a1 then (assocPut k (assocPut (encodeListKey k seq) v tree) st, none)
    else (st, some RErr.ioError)

/-- Collect count consecutive elements of the list trie starting at a
sequence number; a missing element is the getVal ErrKeyNotFound. -/
def collectVals (tree : List (Bytes × Bytes)) (k : Bytes) (seq : Nat) :
    Nat → Except RErr (List Bytes)
  | 0 => Except.ok []
  | n + 1 =>
    match assocGet (encodeListKey k seq) tree with
    | none => Except.error RErr.keyNotFound
    | some v =>
      match collectVals tree k (seq + 1) n with
      | Except.ok vs => Except.ok (v :: vs)
      | Except.error e => Except.error e

/-- LRange: ErrKeyNotFound for an absent trie; start and end are mapped
to sequences, clamped into the open meta interval, and the range is
ErrWrongIndex when empty; otherwise the elements from startSeq to
endSeq inclusive (uint32 loop bound) are collected. -/
def LRange (st : Trees) (k : Bytes) (start finish : Int) : Except RErr (List Bytes) :=
  match assocGet k st with
  | none => Except.error RErr.keyNotFound
  | some tree =>
    let m := listMetaF tree k
    let s0 := listSequence m.1 m.2 start
    let e0 := listSequence m.1 m.2 finish
    let s1 := if s0 ≤ m.1 then (m.1 + 1) % u32 else s0
    let e1 := if m.2 ≤ e0 then (m.2 + u32 - 1) % u32 else e0
    if m.2 ≤ s1 ∨ e1 ≤ m.1 ∨ e1 < s1 then Except.error RErr.wrongIndex
    else collectVals tree k s1 ((e1 + 1) % u32 - s1)

/-- A push or pop step on a fixed list key, with all appends
succeeding. -/
inductive LOp where
  | pushL : Bytes → LOp
  | pushR : Bytes → LOp
  | popL : LOp
  | popR : LOp

/-- Execute one list operation on the trees map. -/
def execOp (st : Trees) (k : Bytes) : LOp → Trees
  | LOp.pushL v => LPush1 st k v
  | LOp.pushR v => RPush1 st k v
  | LOp.popL => (popInternal st k true true true).1
  | LOp.popR => (popInternal st k false true true).1

/-- Execute a sequence of list operations in order. -/
def execOps (st : Trees) (k : Bytes) : List LOp → Trees
  | [] => st
  | op :: ops => execOps (execOp st k op) k ops

/-- The number of pushes in an operation sequence. -/
def countPushes : List LOp → Nat
  | [] => 0
  | LOp.pushL _ :: ops => countPushes ops + 1
  | LOp.pushR _ :: ops => countPushes ops + 1
  | LOp.popL :: ops => countPushes ops
  | LOp.popR :: ops => countPushes ops

/-- bytes.Compare as used by the B-tree item ordering: lexicographic on
raw bytes, a proper prefix ordering before its extensions. -/
def bytesCompare : Bytes → Bytes → Ordering
  | [], [] => Ordering.eq
  | [], _ :: _ => Ordering.lt
  | _ :: _, [] => Ordering.gt
  | a :: as, b :: bs =>
    if a < b then Ordering.lt else if b < a then Ordering.gt else bytesCompare as bs

/-- Modelled from the spec: a log position record (fileId, offset,
size) stored by the string index for each key. -/
structure ChunkPos where
  fid : Nat
  offset : Nat
  size : Nat
deriving DecidableEq

/-- Modelled from the spec: the B-tree of the string index as the
ordered list of its entries in ascending key order (google/btree is an
external dependency; the ordering is the item Less of the wrapper,
bytes.Compare below zero). Get scans for the key. -/
def btGet (k : Bytes) : List (Bytes × ChunkPos) → Option ChunkPos
  | [] => none
  | (k2, p) :: t => if bytesCompare k k2 = Ordering.eq then some p else btGet k t

/-- Modelled from the spec: ReplaceOrInsert of the ordered map; places
the new entry before the first strictly greater key, replacing an equal
key and returning the previous position. -/
def btPut (k : Bytes) (p : ChunkPos) : List (Bytes × ChunkPos) →
    List (Bytes × ChunkPos) × Option ChunkPos
  | [] => ([(k, p)], none)
  | (k2, p2) :: t =>
    match bytesCompare k k2 with
    | Ordering.lt => ((k, p) :: (k2, p2) :: t, none)
    | Ordering.eq => ((k, p) :: t, some p2)
    | Ordering.gt =>
      let r := btPut k p t
      ((k2, p2) :: r.1, r.2)

/-- Modelled from the spec: Delete of the ordered map, removing the
entry with an equal key and reporting the removed position and whether
the key existed. -/
def btDelete (k : Bytes) : List (Bytes × ChunkPos) →
    List (Bytes × ChunkPos) × Option ChunkPos × Bool
  | [] => ([], none, false)
  | (k2, p) :: t =>
    if bytesCompare k k2 = Ordering.eq then (t, some p, true)
    else
      let r := btDelete k t
      ((k2, p) :: r.1, r.2)

/-- Ascend of the string index: the entries visited in ascending order,
including the entry on which the callback returns false, after which
iteration stops. -/
def btAscend (f : Bytes → ChunkPos → Bool) : List (Bytes × ChunkPos) →
    List (Bytes × ChunkPos)
  | [] => []
  | (k, p) :: t => (k, p) :: (if f k p then btAscend f t else [])

/-- Descend of the string index: the visit list of Ascend over the
reversed entry order. -/
def btDescend (f : Bytes → ChunkPos → Bool) (l : List (Bytes × ChunkPos)) :
    List (Bytes × ChunkPos) :=
  btAscend f l.reverse

/-- Well-formedness of the B-tree model: entries strictly ascending in
key order. -/
def sortedBT (l : List (Bytes × ChunkPos)) : Prop :=
  List.Pairwise (fun a b => bytesCompare a.1 b.1 = Ordering.lt) l

/-- Apply a sequence of Put operations to an empty string index. -/
def applyPuts (ops : List (Bytes × ChunkPos)) : List (Bytes × ChunkPos) :=
  ops.foldl (fun l op => (btPut op.1 op.2 l).1) []

/-! Basic lemmas about the association maps and the encodings. -/

theorem assocGet_put_self {α : Type} (k : Bytes) (v : α) (l : List (Bytes × α)) :
    assocGet k (assocPut k v l) = some v := by
  induction l with
  | nil => simp [assocGet, assocPut]
  | cons hd tl ih =>
    obtain ⟨k2, v2⟩ := hd
    by_cases h : k2 = k <;> simp [assocGet, assocPut, h, ih]

theorem assocGet_put_ne {α : Type} (k k2 : Bytes) (v : α) (l : List (Bytes × α))
    (h : k2 ≠ k) : assocGet k2 (assocPut k v l) = assocGet k2 l := by
  have hk : ¬ (k = k2) := fun hh => h hh.symm
  induction l with
  | nil =>
    simp only [assocPut, assocGet]
    rw [if_neg hk]
  | cons hd tl ih =>
    obtain ⟨k3, v3⟩ := hd
    simp only [assocPut]
    by_cases h3 : k3 = k
    · rw [if_pos h3]
      simp only [assocGet]
      rw [if_neg hk, if_neg (h3 ▸ hk)]
    · rw [if_neg h3]
      simp only [assocGet]
      by_cases h4 : k3 = k2
      · rw [if_pos h4, if_pos h4]
      · rw [if_neg h4, if_neg h4, ih]

theorem putUint32LE_length (n : Nat) : (putUint32LE n).length = 4 := by
  simp [putUint32LE]

theorem leUint32_putUint32LE (n : Nat) (h : n < 4294967296) :
    leUint32 (putUint32LE n) = n := by
  show n % 256 % 256 + 256 * (n / 256 % 256 % 256) + 65536 * (n / 65536 % 256 % 256) +
    16777216 * (n / 16777216 % 256 % 256) = n
  omega

theorem leUint32_lt (b : Bytes) : leUint32 b < 4294967296 := by
  simp only [leUint32]
  have h0 : b.getD 0 0 % 256 < 256 := Nat.mod_lt _ (by omega)
  have h1 : b.getD 1 0 % 256 < 256 := Nat.mod_lt _ (by omega)
  have h2 : b.getD 2 0 % 256 < 256 := Nat.mod_lt _ (by omega)
  have h3 : b.getD 3 0 % 256 < 256 := Nat.mod_lt _ (by omega)
  omega

theorem metaBytes_take (h t : Nat) : (metaBytes h t).take 4 = putUint32LE h := rfl

theorem metaBytes_drop (h t : Nat) : (metaBytes h t).drop 4 = putUint32LE t := rfl

theorem metaBytes_ne_nil (h t : Nat) : metaBytes h t ≠ [] := by
  simp [metaBytes, putUint32LE]

theorem listMetaF_put_meta (tree : List (Bytes × Bytes)) (k : Bytes) (h t : Nat)
    (hh : h < 4294967296) (ht : t < 4294967296) :
    listMetaF (assocPut k (metaBytes h t) tree) k = (h, t) := by
  simp only [listMetaF, assocGet_put_self, metaBytes_ne_nil, if_false,
    metaBytes_take, metaBytes_drop, leUint32_putUint32LE _ hh, leUint32_putUint32LE _ ht]

theorem encodeListKey_ne_key (k : Bytes) (seq : Nat) : encodeListKey k seq ≠ k := by
  intro h
  have h2 := congrArg List.length h
  simp only [encodeListKey, putUint32LE, List.length_append, List.length_cons,
    List.length_nil] at h2
  omega

theorem listMetaF_put_elem (tree : List (Bytes × Bytes)) (k : Bytes) (seq : Nat)
    (v : Bytes) : listMetaF (assocPut (encodeListKey k seq) v tree) k = listMetaF tree k := by
  unfold listMetaF
  rw [assocGet_put_ne (encodeListKey k seq) k v tree (Ne.symm (encodeListKey_ne_key k seq))]

/-- The example key of the end-to-end list scenario. -/
def exKey : Bytes := [76]

/-- The store after LPush x, LPush y, RPush z on the example key,
starting from the empty store. -/
def exState : Trees :=
  RPush1 (LPush1 (LPush1 [] exKey [120]) exKey [121]) exKey [122]

/-- C2: starting from an empty store, LPush x, LPush y, RPush z gives
LRange 0 -1 = [y, x, z]; then LPop returns y, RPop returns z, and LLen
is 1. -/
theorem C2_list_scenario :
    LRange exState exKey 0 (-1) = Except.ok [[121], [120], [122]] ∧
    (LPop exState exKey).2.1 = some [121] ∧
    (RPop (LPop exState exKey).1 exKey).2.1 = some [122] ∧
    LLen (RPop (LPop exState exKey).1 exKey).1 exKey = 1 :=
  ⟨rfl, rfl, rfl, rfl⟩

/-- C10: on a key with no list, LPop, RPop and LIndex return a nil
value and nil error, while LRange, LSet, LPushX and RPushX return the
KeyNotFound error. -/
theorem C10_absent_list_key (st : Trees) (k : Bytes) (h : assocGet k st = none) :
    LPop st k = (st, none, none) ∧
    RPop st k = (st, none, none) ∧
    (∀ i : Int, LIndex st k i = (none, none)) ∧
    (∀ s e : Int, LRange st k s e = Except.error RErr.keyNotFound) ∧
    (∀ (i : Int) (v : Bytes) (a : Bool), LSet st k i v a = (st, some RErr.keyNotFound)) ∧
    (∀ v : Bytes, LPushX1 st k v = (st, some RErr.keyNotFound)) ∧
    (∀ v : Bytes, RPushX1 st k v = (st, some RErr.keyNotFound)) := by
  refine ⟨?_, ?_, fun i => ?_, fun s e => ?_, fun i v a => ?_, fun v => ?_, fun v => ?_⟩ <;>
    simp [LPop, RPop, popInternal, LIndex, LRange, LSet, LPushX1, RPushX1, h]

/-- C10 witness: the empty store at a concrete key. -/
theorem C10_absent_list_key_witness :
    assocGet [0] ([] : Trees) = none ∧
    LPop [] [0] = ([], none, none) ∧
    LIndex [] [0] 5 = (none, none) ∧
    LRange [] [0] 0 (-1) = Except.error RErr.keyNotFound ∧
    LSet [] [0] 0 [1] true = ([], some RErr.keyNotFound) ∧
    LPushX1 [] [0] [1] = ([], some RErr.keyNotFound) :=
  have h := C10_absent_list_key [] [0] rfl
  ⟨rfl, h.1, h.2.2.1 5, h.2.2.2.1 0 (-1), h.2.2.2.2.1 0 [1] true, h.2.2.2.2.2.1 [1]⟩

/-- C1 counterexample: HSetNx with a failing log append reports the
append error yet has already inserted the field into the in-memory
hash index, so the index differs from the state before the call. -/
theorem C1_counterexample :
    (HSetNx [] [1] [2] [3] false).2.2 = some RErr.ioError ∧
    hashHGet [] [1] [2] = none ∧
    hashHGet (HSetNx [] [1] [2] [3] false).1 [1] [2] = some [3] :=
  ⟨rfl, rfl, rfl⟩

/-- C1 amended: HSet and LSet leave the in-memory index unchanged when
their log append fails, and push and pop leave it unchanged when their
first append fails; HSetNx and HDel however update the index before
appending (the index change equals the indexer update regardless of the
append outcome), and when the second (metadata) append of push or pop
fails the element insertion or deletion stays in the index with the old
metadata. -/
theorem C1_amended_append_failure :
    (∀ (mode : IdxMode) (st : HashIdx) (k f v : Bytes), (HSet mode st k f v false).1 = st) ∧
    (∀ (st : Trees) (k : Bytes) (i : Int) (v : Bytes), (LSet st k i v false).1 = st) ∧
    (∀ (st : Trees) (k v : Bytes) (isLeft a2 : Bool),
      (pushInternal st k v isLeft false a2).1 = st) ∧
    (∀ (st : Trees) (k : Bytes) (isLeft a2 : Bool),
      (popInternal st k isLeft false a2).1 = st) ∧
    (∀ (st : HashIdx) (k f v : Bytes) (a : Bool),
      (HSetNx st k f v a).1 = (hashHSetIndexer st k f v true).1) ∧
    (∀ (st : HashIdx) (k f : Bytes),
      (HDel st k [f] [false]).1 = (hashHDelIndexer st k f).1) ∧
    (∀ (st : Trees) (k v : Bytes) (isLeft : Bool),
      (pushInternal st k v isLeft true false).1 =
        assocPut k (assocPut
          (encodeListKey k (if isLeft then (metaOf st k).1 else (metaOf st k).2)) v
          ((assocGet k st).getD [])) st) ∧
    (∀ (st : Trees) (k : Bytes) (isLeft : Bool),
      (popInternal st k isLeft true false).1 = st ∨
      (popInternal st k isLeft true false).1 =
        assocPut k (assocPut k (metaBytes initialListSeq (initialListSeq + 1))
          ((assocGet k st).getD [])) st ∨
      (popInternal st k isLeft true false).1 =
        assocPut k (assocDel
          (encodeListKey k (if isLeft then ((metaOf st k).1 + 1) % u32
            else ((metaOf st k).2 + u32 - 1) % u32))
          ((assocGet k st).getD [])) st) := by
  refine ⟨fun mode st k f v => ?_, fun st k i v => ?_, fun st k v isLeft a2 => ?_,
    fun st k isLeft a2 => ?_, fun st k f v a => ?_, fun st k f => ?_,
    fun st k v isLeft => ?_, fun st k isLeft => ?_⟩
  · unfold HSet
    split
    · rfl
    · rfl
  · unfold LSet
    cases assocGet k st with
    | none => rfl
    | some tree =>
      simp only []
      split
      · rfl
      · rfl
  · unfold pushInternal
    simp only [Bool.false_eq_true, if_false]
  · unfold popInternal
    cases assocGet k st with
    | none => rfl
    | some tree =>
      simp only []
      split
      · split
        · rfl
        · simp only [Bool.false_eq_true, if_false]
      · cases assocGet (encodeListKey k (if isLeft then ((listMetaF tree k).1 + 1) % u32
          else ((listMetaF tree k).2 + u32 - 1) % u32)) tree with
        | none => rfl
        | some v => simp only [Bool.false_eq_true, if_false]
  · unfold HSetNx hashHSetIndexer
    cases h : assocGet f ((assocGet k st).getD []) with
    | some v2 => simp [h]
    | none => cases a <;> simp [h]
  · unfold HDel hashHDelIndexer
    cases h : assocGet f ((assocGet k st).getD []) with
    | some v2 => simp [HDel, h]
    | none => simp [HDel, hashHDelIndexer, h]
  · rfl
  · unfold popInternal
    cases h : assocGet k st with
    | none => exact Or.inl rfl
    | some tree =>
      simp only []
      split
      · split
        · exact Or.inl rfl
        · refine Or.inr (Or.inl ?_)
          simp only [if_true, h, Option.getD_some]
      · cases h2 : assocGet (encodeListKey k (if isLeft then ((listMetaF tree k).1 + 1) % u32
          else ((listMetaF tree k).2 + u32 - 1) % u32)) tree with
        | none => exact Or.inl rfl
        | some v =>
          refine Or.inr (Or.inr ?_)
          simp only [h2, Bool.false_eq_true, if_false, if_true, metaOf, h, Option.getD_some]

/-- C7 counterexample: in key-value mode, HSet on a brand-new field
with an empty value returns 0 and does not insert the field (the absent
field reads back as a nil value, which compares equal to the empty
value, so the no-change short-circuit fires), although the claim
requires a return of 1 for a new field. -/
theorem C7_counterexample :
    hashHGet [] [1] [2] = none ∧
    HSet IdxMode.keyValueMem [] [1] [2] [] true = ([], 0, none) :=
  ⟨rfl, rfl⟩

theorem hashHGet_after_insert (st : HashIdx) (k f v : Bytes) :
    hashHGet (assocPut k (assocPut f v ((assocGet k st).getD [])) st) k f = some v := by
  simp [hashHGet, assocGet_put_self]

/-- C7 amended: HSetNx returns 1 exactly when the field did not exist,
and then the field is inserted with the given value; HSet returns 0
when the field already exists (an overwrite or the no-change
short-circuit), returns 1 on a new field in key-only mode or in
key-value mode with a non-empty value, but in key-value mode a new
field with an empty value is a no-op returning 0. -/
theorem C7_amended_hset_results :
    (∀ (st : HashIdx) (k f v : Bytes),
      ((HSetNx st k f v true).2.1 = 1 ↔ hashHGet st k f = none) ∧
      (hashHGet st k f = none → hashHGet (HSetNx st k f v true).1 k f = some v)) ∧
    (∀ (mode : IdxMode) (st : HashIdx) (k f v : Bytes),
      (hashHGet st k f).isSome → (HSet mode st k f v true).2.1 = 0) ∧
    (∀ (st : HashIdx) (k f v : Bytes),
      hashHGet st k f = none → (HSet IdxMode.keyOnly st k f v true).2.1 = 1) ∧
    (∀ (st : HashIdx) (k f v : Bytes),
      hashHGet st k f = none → v ≠ [] → (HSet IdxMode.keyValueMem st k f v true).2.1 = 1) ∧
    (∀ (st : HashIdx) (k f : Bytes),
      hashHGet st k f = none → HSet IdxMode.keyValueMem st k f [] true = (st, 0, none)) := by
  have hget : ∀ (st : HashIdx) (k f : Bytes),
      hashHGet st k f = assocGet f ((assocGet k st).getD []) := by
    intro st k f
    unfold hashHGet
    cases assocGet k st <;> rfl
  refine ⟨fun st k f v => ⟨?_, ?_⟩, fun mode st k f v hs => ?_, fun st k f v hn => ?_,
    fun st k f v hn hv => ?_, fun st k f hn => ?_⟩
  · unfold HSetNx hashHSetIndexer
    rw [hget]
    cases h : assocGet f ((assocGet k st).getD []) with
    | some v2 => simp [h]
    | none => simp [h]
  · intro hn
    rw [hget] at hn
    unfold HSetNx hashHSetIndexer
    simp [hn, hashHGet_after_insert]
  · rw [hget] at hs
    unfold HSet hashHSetIndexer
    cases h : assocGet f ((assocGet k st).getD []) with
    | some v2 =>
      split
      · rfl
      · simp [h]
    | none => rw [h] at hs; simp at hs
  · rw [hget] at hn
    unfold HSet hashHSetIndexer
    have hc : ¬ (IdxMode.keyOnly = IdxMode.keyValueMem ∧ (hashHGet st k f).getD [] = v) := by
      intro hx
      exact IdxMode.noConfusion hx.1
    rw [if_neg hc]
    simp [hn]
  · rw [hget] at hn
    unfold HSet hashHSetIndexer
    have hc : ¬ (IdxMode.keyValueMem = IdxMode.keyValueMem ∧ (hashHGet st k f).getD [] = v) := by
      intro hx
      have hx2 := hx.2
      rw [hget, hn] at hx2
      exact hv hx2.symm
    rw [if_neg hc]
    simp [hn]
  · unfold HSet
    have : (hashHGet st k f).getD [] = ([] : Bytes) := by rw [hn]; rfl
    rw [if_pos ⟨rfl, this⟩]

/-- C7 witness: concrete instances of each amended conjunct. -/
theorem C7_amended_hset_results_witness :
    ((HSetNx [] [1] [2] [3] true).2.1 = 1 ↔ hashHGet [] [1] [2] = none) ∧
    (hashHGet [([1], [([9], [7])])] [1] [9]).isSome = true ∧
    (HSet IdxMode.keyOnly [([1], [([9], [7])])] [1] [9] [8] true).2.1 = 0 ∧
    hashHGet [] [1] [2] = none ∧
    (HSet IdxMode.keyOnly [] [1] [2] [3] true).2.1 = 1 ∧
    (HSet IdxMode.keyValueMem [] [1] [2] [3] true).2.1 = 1 ∧
    HSet IdxMode.keyValueMem [] [1] [2] [] true = ([], 0, none) :=
  ⟨(C7_amended_hset_results.1 [] [1] [2] [3]).1, rfl,
    C7_amended_hset_results.2.1 IdxMode.keyOnly [([1], [([9], [7])])] [1] [9] [8] rfl, rfl,
    C7_amended_hset_results.2.2.1 [] [1] [2] [3] rfl,
    C7_amended_hset_results.2.2.2.1 [] [1] [2] [3] rfl (by decide),
    C7_amended_hset_results.2.2.2.2 [] [1] [2] rfl⟩

/-- C8: decodeListKey inverts encodeListKey for every user key and
32-bit sequence number, and a metadata body written as four
little-endian bytes of headSeq then tailSeq reads back through listMeta
as the same pair. -/
theorem C8_list_encoding_roundtrip :
    (∀ (k : Bytes) (seq : Nat), seq < 4294967296 →
      decodeListKey (encodeListKey k seq) = (k, seq)) ∧
    (∀ (tree : List (Bytes × Bytes)) (k : Bytes) (h t : Nat),
      h < 4294967296 → t < 4294967296 →
      listMetaF (assocPut k (metaBytes h t) tree) k = (h, t)) := by
  constructor
  · intro k seq hs
    show (k, leUint32 (putUint32LE seq)) = (k, seq)
    rw [leUint32_putUint32LE seq hs]
  · intro tree k h t hh ht
    exact listMetaF_put_meta tree k h t hh ht

/-- C8 witness: a concrete key, sequence number and metadata pair. -/
theorem C8_list_encoding_roundtrip_witness :
    decodeListKey (encodeListKey [5, 6] 305419896) = ([5, 6], 305419896) ∧
    listMetaF (assocPut [5, 6] (metaBytes 2147483648 2147483649) []) [5, 6] =
      (2147483648, 2147483649) :=
  ⟨C8_list_encoding_roundtrip.1 [5, 6] 305419896 (by decide),
    C8_list_encoding_roundtrip.2 [] [5, 6] 2147483648 2147483649 (by decide) (by decide)⟩

theorem listMetaF_nil (k : Bytes) : listMetaF [] k = (initialListSeq, initialListSeq + 1) := rfl

theorem listMetaF_lt (tree : List (Bytes × Bytes)) (k : Bytes) :
    (listMetaF tree k).1 < 4294967296 ∧ (listMetaF tree k).2 < 4294967296 := by
  unfold listMetaF
  split
  · exact ⟨by decide, by decide⟩
  · split
    · exact ⟨by decide, by decide⟩
    · exact ⟨leUint32_lt _, leUint32_lt _⟩

theorem popInternal_already_empty (st : Trees) (k : Bytes) (isLeft a1 a2 : Bool)
    (tree : List (Bytes × Bytes)) (htree : assocGet k st = some tree)
    (h : (listMetaF tree k).2 = (listMetaF tree k).1 + 1) :
    popInternal st k isLeft a1 a2 =
      if (listMetaF tree k).1 = initialListSeq ∧ (listMetaF tree k).2 = initialListSeq + 1
      then (st, none, none)
      else if a1 then
        (assocPut k (assocPut k (metaBytes initialListSeq (initialListSeq + 1)) tree) st,
          none, none)
      else (st, none, none) := by
  unfold popInternal
  rw [htree]
  have hsize : ((listMetaF tree k).2 + u32 - ((listMetaF tree k).1 + 1)) % u32 = 0 := by
    rw [h]
    simp [u32]
  simp only [hsize, if_pos rfl, if_true]

/-- C4 counterexample: pushing one element on the left and popping it
on the right leaves a list of length zero whose metadata is
(2^31 - 1, 2^31), not the initial pair; the reset only happens on a
later pop of the already-empty list. -/
theorem C4_counterexample :
    LLen (execOps [] [1] [LOp.pushL [120], LOp.popR]) [1] = 0 ∧
    metaOf (execOps [] [1] [LOp.pushL [120], LOp.popR]) [1] = (2147483647, 2147483648) ∧
    (2147483647, 2147483648) ≠ (initialListSeq, initialListSeq + 1) :=
  ⟨rfl, rfl, by decide⟩

/-- C4 amended: the metadata reset to the initial values is lazy: a pop
that finds the list already empty (tailSeq = headSeq + 1) resets the
metadata to the initial pair and returns a nil value with nil error,
whereas the pop that removes the last element merely leaves
tailSeq = headSeq + 1 without resetting. -/
theorem C4_amended_lazy_meta_reset (st : Trees) (k : Bytes) (isLeft : Bool)
    (h : (metaOf st k).2 = (metaOf st k).1 + 1) :
    metaOf (popInternal st k isLeft true true).1 k = (initialListSeq, initialListSeq + 1) ∧
    (popInternal st k isLeft true true).2 = (none, none) := by
  cases htree : assocGet k st with
  | none =>
    have hres : popInternal st k isLeft true true = (st, none, none) := by
      unfold popInternal
      rw [htree]
    rw [hres]
    have hm : metaOf st k = (initialListSeq, initialListSeq + 1) := by
      unfold metaOf
      rw [htree]
      rfl
    exact ⟨hm, rfl⟩
  | some tree =>
    have hm : metaOf st k = listMetaF tree k := by
      unfold metaOf
      rw [htree]
      rfl
    rw [hm] at h
    rw [popInternal_already_empty st k isLeft true true tree htree h]
    by_cases hinit : (listMetaF tree k).1 = initialListSeq ∧
        (listMetaF tree k).2 = initialListSeq + 1
    · rw [if_pos hinit]
      refine ⟨?_, rfl⟩
      rw [hm]
      rw [Prod.ext_iff]
      exact ⟨hinit.1, hinit.2⟩
    · rw [if_neg hinit, if_pos rfl]
      refine ⟨?_, rfl⟩
      unfold metaOf
      rw [assocGet_put_self]
      simp only [Option.getD_some]
      exact listMetaF_put_meta tree k initialListSeq (initialListSeq + 1)
        (by decide) (by decide)

/-- C4 amended witness: popping from the empty store keeps the initial
metadata. -/
theorem C4_amended_lazy_meta_reset_witness :
    (metaOf [] [1]).2 = (metaOf [] [1]).1 + 1 ∧
    metaOf (popInternal [] [1] true true true).1 [1] = (initialListSeq, initialListSeq + 1) :=
  ⟨rfl, (C4_amended_lazy_meta_reset [] [1] true rfl).1⟩

theorem collectVals_error (tree : List (Bytes × Bytes)) (k : Bytes) :
    ∀ (n seq : Nat) (e : RErr), collectVals tree k seq n = Except.error e →
      e = RErr.keyNotFound := by
  intro n
  induction n with
  | zero =>
    intro seq e h
    exact absurd h (by simp [collectVals])
  | succ m ih =>
    intro seq e h
    unfold collectVals at h
    cases hg : assocGet (encodeListKey k seq) tree with
    | none =>
      rw [hg] at h
      injection h with h2
      exact h2.symm
    | some v =>
      rw [hg] at h
      cases hr : collectVals tree k (seq + 1) m with
      | ok vs => rw [hr] at h; exact absurd h (by simp)
      | error e2 =>
        rw [hr] at h
        injection h with h2
        rw [← h2]
        exact ih (seq + 1) e2 hr

/-- C5 counterexample: on the three-element example list, the physical
sequence of logical index 5 lies on or beyond tailSeq, yet LRange with
end index 5 succeeds with the whole list instead of returning the
WrongIndex error: LRange clamps out-of-range bounds. -/
theorem C5_counterexample :
    (metaOf exState exKey).2 ≤
      listSequence (metaOf exState exKey).1 (metaOf exState exKey).2 5 ∧
    LRange exState exKey 0 5 = Except.ok [[121], [120], [122]] :=
  ⟨by decide, rfl⟩

/-- The emptiness condition of the clamped LRange interval: the clamped
start at or beyond tailSeq, the clamped end at or before headSeq, or an
empty clamped range. -/
def lrangeEmpty (h t : Nat) (s e : Int) : Prop :=
  t ≤ (if listSequence h t s ≤ h then (h + 1) % u32 else listSequence h t s) ∨
  (if t ≤ listSequence h t e then (t + u32 - 1) % u32 else listSequence h t e) ≤ h ∨
  (if t ≤ listSequence h t e then (t + u32 - 1) % u32 else listSequence h t e) <
    (if listSequence h t s ≤ h then (h + 1) % u32 else listSequence h t s)

/-- C5 amended: the physical sequence of logical index i is
headSeq + i + 1 for i ≥ 0 and tailSeq + i (that is tailSeq − |i|) for
i < 0, in uint32 arithmetic; LIndex and LSet return the WrongIndex
error whenever that sequence falls outside the open interval
(headSeq, tailSeq), and WrongIndex is distinct from KeyNotFound; LRange
instead clamps the start and end sequences into the interval and
returns WrongIndex only when the clamped range is empty. -/
theorem C5_amended_sequence_and_wrong_index :
    (∀ (h t : Nat) (i : Int), 0 ≤ i →
      (listSequence h t i : Int) = ((h : Int) + i + 1) % 4294967296) ∧
    (∀ (h t : Nat) (i : Int), i < 0 →
      (listSequence h t i : Int) = ((t : Int) + i) % 4294967296) ∧
    (∀ (st : Trees) (k : Bytes) (i : Int) (v : Bytes) (a : Bool),
      (assocGet k st).isSome →
      ((metaOf st k).2 ≤ listSequence (metaOf st k).1 (metaOf st k).2 i ∨
        listSequence (metaOf st k).1 (metaOf st k).2 i ≤ (metaOf st k).1) →
      LIndex st k i = (none, some RErr.wrongIndex) ∧
      LSet st k i v a = (st, some RErr.wrongIndex)) ∧
    (RErr.wrongIndex ≠ RErr.keyNotFound) ∧
    (∀ (st : Trees) (k : Bytes) (s e : Int),
      LRange st k s e = Except.error RErr.wrongIndex →
      lrangeEmpty (metaOf st k).1 (metaOf st k).2 s e) := by
  refine ⟨fun h t i hi => ?_, fun h t i hi => ?_, fun st k i v a hs hcond => ?_,
    by decide, fun st k s e herr => ?_⟩
  · unfold listSequence
    rw [if_pos hi]
    show ((h + i.toNat % 4294967296 + 1) % 4294967296 : Nat) =
      ((h : Int) + i + 1) % 4294967296
    omega
  · unfold listSequence
    rw [if_neg (by omega : ¬ 0 ≤ i)]
    show ((t + (4294967296 - (-i).toNat % 4294967296)) % 4294967296 : Nat) =
      ((t : Int) + i) % 4294967296
    omega
  · obtain ⟨tree, htree⟩ := Option.isSome_iff_exists.mp hs
    have hm : metaOf st k = listMetaF tree k := by
      unfold metaOf
      rw [htree]
      rfl
    rw [hm] at hcond
    refine ⟨?_, ?_⟩
    · simp only [LIndex, htree]
      rw [if_pos hcond]
    · simp only [LSet, htree]
      rw [if_pos hcond]
  · cases htree : assocGet k st with
    | none =>
      simp only [LRange, htree] at herr
      injection herr with h2
      exact RErr.noConfusion h2
    | some tree =>
      have hm : metaOf st k = listMetaF tree k := by
        unfold metaOf
        rw [htree]
        rfl
      rw [hm]
      simp only [LRange, htree] at herr
      by_cases hc : lrangeEmpty (listMetaF tree k).1 (listMetaF tree k).2 s e
      · exact hc
      · unfold lrangeEmpty at hc
        rw [if_neg hc] at herr
        exact absurd (collectVals_error tree k _ _ _ herr) (by decide)

/-- C5 witness: concrete instances of the amended conjuncts. -/
theorem C5_amended_sequence_and_wrong_index_witness :
    (listSequence 10 20 3 : Int) = ((10 : Int) + 3 + 1) % 4294967296 ∧
    (listSequence 10 20 (-2) : Int) = ((20 : Int) + (-2)) % 4294967296 ∧
    LIndex exState exKey 99 = (none, some RErr.wrongIndex) ∧
    LSet exState exKey 99 [1] true = (exState, some RErr.wrongIndex) ∧
    lrangeEmpty (metaOf exState exKey).1 (metaOf exState exKey).2 50 60 :=
  ⟨C5_amended_sequence_and_wrong_index.1 10 20 3 (by decide),
    C5_amended_sequence_and_wrong_index.2.1 10 20 (-2) (by decide),
    (C5_amended_sequence_and_wrong_index.2.2.1 exState exKey 99 [1] true (by decide)
      (by decide)).1,
    (C5_amended_sequence_and_wrong_index.2.2.1 exState exKey 99 [1] true (by decide)
      (by decide)).2,
    C5_amended_sequence_and_wrong_index.2.2.2.2 exState exKey 50 60 rfl⟩

/-- C6: for an existing list and a logical index i with
0 ≤ i < LLen, LIndex at i equals LIndex at i − LLen: both resolve to
the same physical sequence. -/
theorem C6_lindex_index_alias (st : Trees) (k : Bytes) (i : Int)
    (hk : (assocGet k st).isSome) (h0 : 0 ≤ i) (h1 : i < LLen st k) :
    LIndex st k i = LIndex st k (i - LLen st k) := by
  obtain ⟨tree, htree⟩ := Option.isSome_iff_exists.mp hk
  have hL : LLen st k =
      ((((listMetaF tree k).2 + u32 - ((listMetaF tree k).1 + 1)) % u32 : Nat) : Int) := by
    simp only [LLen, htree]
  have hbounds := listMetaF_lt tree k
  have hseq : listSequence (listMetaF tree k).1 (listMetaF tree k).2 i =
      listSequence (listMetaF tree k).1 (listMetaF tree k).2 (i - LLen st k) := by
    rw [hL] at h1 ⊢
    have hneg : ¬ (0 : Int) ≤
        i - ((((listMetaF tree k).2 + u32 - ((listMetaF tree k).1 + 1)) % u32 : Nat) : Int) := by
      omega
    unfold listSequence
    rw [if_pos h0, if_neg hneg]
    simp only [u32] at h1 hbounds ⊢
    omega
  simp only [LIndex, htree]
  rw [hseq]

/-- C6 witness: index 1 of the three-element example list. -/
theorem C6_lindex_index_alias_witness :
    (assocGet exKey exState).isSome = true ∧ (0 : Int) ≤ 1 ∧ (1 : Int) < LLen exState exKey ∧
    LIndex exState exKey 1 = LIndex exState exKey (1 - LLen exState exKey) :=
  ⟨rfl, by decide, by decide,
    C6_lindex_index_alias exState exKey 1 rfl (by decide) (by decide)⟩

theorem metaOf_lt (st : Trees) (k : Bytes) :
    (metaOf st k).1 < 4294967296 ∧ (metaOf st k).2 < 4294967296 :=
  listMetaF_lt ((assocGet k st).getD []) k

theorem pushInternal_true_state (st : Trees) (k v : Bytes) (isLeft : Bool) :
    (pushInternal st k v isLeft true true).1 =
      assocPut k (assocPut k
        (metaBytes
          (if isLeft then ((listMetaF ((assocGet k st).getD []) k).1 + 4294967295) % u32
            else (listMetaF ((assocGet k st).getD []) k).1)
          (if isLeft then (listMetaF ((assocGet k st).getD []) k).2
            else ((listMetaF ((assocGet k st).getD []) k).2 + 1) % u32))
        (assocPut (encodeListKey k (if isLeft then (listMetaF ((assocGet k st).getD []) k).1
            else (listMetaF ((assocGet k st).getD []) k).2)) v
          ((assocGet k st).getD []))) st := rfl

theorem mod_u32_lt (x : Nat) : x % u32 < 4294967296 :=
  Nat.mod_lt x (by decide)

theorem metaOf_pushInternal (st : Trees) (k v : Bytes) (isLeft : Bool) :
    metaOf (pushInternal st k v isLeft true true).1 k =
      (if isLeft then ((metaOf st k).1 + 4294967295) % u32 else (metaOf st k).1,
        if isLeft then (metaOf st k).2 else ((metaOf st k).2 + 1) % u32) := by
  have hb := metaOf_lt st k
  unfold metaOf at hb ⊢
  cases isLeft
  · rw [pushInternal_true_state, assocGet_put_self]
    simp only [Option.getD_some, Bool.false_eq_true, if_false]
    exact listMetaF_put_meta _ _ _ _ hb.1 (mod_u32_lt _)
  · rw [pushInternal_true_state, assocGet_put_self]
    simp only [Option.getD_some, if_true]
    exact listMetaF_put_meta _ _ _ _ (mod_u32_lt _) hb.2

theorem metaOf_create (st : Trees) (k : Bytes) :
    metaOf (if (assocGet k st).isSome then st else assocPut k [] st) k = metaOf st k := by
  cases h : assocGet k st with
  | none =>
    simp only [h, Option.isSome_none, Bool.false_eq_true, if_false]
    unfold metaOf
    rw [assocGet_put_self, h]
    rfl
  | some tree => simp [h]

theorem metaOf_LPush1 (st : Trees) (k v : Bytes) :
    metaOf (LPush1 st k v) k = (((metaOf st k).1 + 4294967295) % u32, (metaOf st k).2) := by
  unfold LPush1
  rw [metaOf_pushInternal, metaOf_create]
  simp

theorem metaOf_RPush1 (st : Trees) (k v : Bytes) :
    metaOf (RPush1 st k v) k = ((metaOf st k).1, ((metaOf st k).2 + 1) % u32) := by
  unfold RPush1
  rw [metaOf_pushInternal, metaOf_create]
  simp

theorem metaOf_pop_cases (st : Trees) (k : Bytes) (isLeft : Bool) :
    metaOf (popInternal st k isLeft true true).1 k = metaOf st k ∨
    metaOf (popInternal st k isLeft true true).1 k = (initialListSeq, initialListSeq + 1) ∨
    (((metaOf st k).2 + u32 - ((metaOf st k).1 + 1)) % u32 ≠ 0 ∧
      metaOf (popInternal st k isLeft true true).1 k =
        (if isLeft then ((metaOf st k).1 + 1) % u32 else (metaOf st k).1,
          if isLeft then (metaOf st k).2 else ((metaOf st k).2 + u32 - 1) % u32)) := by
  have hb := metaOf_lt st k
  cases htree : assocGet k st with
  | none =>
    refine Or.inl ?_
    have hres : (popInternal st k isLeft true true).1 = st := by
      unfold popInternal
      rw [htree]
    rw [hres]
  | some tree =>
    have hm : metaOf st k = listMetaF tree k := by
      unfold metaOf
      rw [htree]
      rfl
    rw [hm] at hb ⊢
    simp only [popInternal, htree, if_true]
    by_cases hsz : ((listMetaF tree k).2 + u32 - ((listMetaF tree k).1 + 1)) % u32 = 0
    · rw [if_pos hsz]
      by_cases hinit : (listMetaF tree k).1 = initialListSeq ∧
          (listMetaF tree k).2 = initialListSeq + 1
      · rw [if_pos hinit]
        exact Or.inl hm
      · rw [if_neg hinit]
        refine Or.inr (Or.inl ?_)
        unfold metaOf
        rw [assocGet_put_self]
        simp only [Option.getD_some]
        exact listMetaF_put_meta _ _ _ _ (by decide) (by decide)
    · rw [if_neg hsz]
      cases hel : assocGet (encodeListKey k (if isLeft then ((listMetaF tree k).1 + 1) % u32
          else ((listMetaF tree k).2 + u32 - 1) % u32)) tree with
      | none => exact Or.inl hm
      | some v =>
        refine Or.inr (Or.inr ⟨hsz, ?_⟩)
        unfold metaOf
        rw [assocGet_put_self]
        simp only [Option.getD_some]
        cases isLeft
        · simp only [Bool.false_eq_true, if_false]
          exact listMetaF_put_meta _ _ _ _ hb.1 (mod_u32_lt _)
        · simp only [if_true]
          exact listMetaF_put_meta _ _ _ _ (mod_u32_lt _) hb.2

/-- The bounded metadata invariant: after at most p pushes, headSeq has
moved down from 2^31 by at most p, tailSeq up from 2^31+1 by at most p,
and the open interval is still well formed. -/
def metaInv (st : Trees) (k : Bytes) (p : Nat) : Prop :=
  2147483648 - p ≤ (metaOf st k).1 ∧ (metaOf st k).2 ≤ 2147483649 + p ∧
  (metaOf st k).1 + 1 ≤ (metaOf st k).2

theorem metaInv_pushL (st : Trees) (k v : Bytes) (p : Nat)
    (h : metaInv st k p) (hp : p + 1 ≤ 2147483646) :
    metaInv (LPush1 st k v) k (p + 1) := by
  have hb := metaOf_lt st k
  unfold metaInv at h ⊢
  rw [metaOf_LPush1]
  simp only [u32] at *
  omega

theorem metaInv_pushR (st : Trees) (k v : Bytes) (p : Nat)
    (h : metaInv st k p) (hp : p + 1 ≤ 2147483646) :
    metaInv (RPush1 st k v) k (p + 1) := by
  have hb := metaOf_lt st k
  unfold metaInv at h ⊢
  rw [metaOf_RPush1]
  simp only [u32] at *
  omega

theorem metaInv_pop (st : Trees) (k : Bytes) (isLeft : Bool) (p : Nat)
    (h : metaInv st k p) :
    metaInv (popInternal st k isLeft true true).1 k p := by
  have hb := metaOf_lt st k
  rcases metaOf_pop_cases st k isLeft with hc | hc | ⟨hsz, hc⟩
  · unfold metaInv at h ⊢
    rw [hc]
    exact h
  · unfold metaInv at h ⊢
    rw [hc]
    unfold initialListSeq
    omega
  · unfold metaInv at h ⊢
    rw [hc]
    cases isLeft
    · simp only [Bool.false_eq_true, if_false] at *
      simp only [u32] at *
      omega
    · simp only [if_true] at *
      simp only [u32] at *
      omega

theorem metaInv_execOps (k : Bytes) : ∀ (ops : List LOp) (st : Trees) (p : Nat),
    metaInv st k p → p + countPushes ops ≤ 2147483646 →
    metaInv (execOps st k ops) k (p + countPushes ops) := by
  intro ops
  induction ops with
  | nil =>
    intro st p h hb
    simpa [execOps, countPushes] using h
  | cons op rest ih =>
    intro st p h hb
    cases op with
    | pushL v =>
      have hcount : countPushes (LOp.pushL v :: rest) = countPushes rest + 1 := rfl
      rw [hcount] at hb ⊢
      have h1 := metaInv_pushL st k v p h (by omega)
      have h2 := ih (LPush1 st k v) (p + 1) h1 (by omega)
      have h3 : p + (countPushes rest + 1) = p + 1 + countPushes rest := by omega
      rw [h3]
      exact h2
    | pushR v =>
      have hcount : countPushes (LOp.pushR v :: rest) = countPushes rest + 1 := rfl
      rw [hcount] at hb ⊢
      have h1 := metaInv_pushR st k v p h (by omega)
      have h2 := ih (RPush1 st k v) (p + 1) h1 (by omega)
      have h3 : p + (countPushes rest + 1) = p + 1 + countPushes rest := by omega
      rw [h3]
      exact h2
    | popL =>
      have h1 := metaInv_pop st k true p h
      exact ih _ p h1 hb
    | popR =>
      have h1 := metaInv_pop st k false p h
      exact ih _ p h1 hb

theorem LLen_eq (st : Trees) (k : Bytes) :
    LLen st k = ((((metaOf st k).2 + u32 - ((metaOf st k).1 + 1)) % u32 : Nat) : Int) := by
  cases h : assocGet k st with
  | none =>
    have hm : metaOf st k = (initialListSeq, initialListSeq + 1) := by
      unfold metaOf
      rw [h]
      rfl
    rw [hm]
    simp only [LLen, h]
    decide
  | some tree =>
    have hm : metaOf st k = listMetaF tree k := by
      unfold metaOf
      rw [h]
      rfl
    rw [hm]
    simp only [LLen, h]

theorem metaOf_rpush_replicate (k v : Bytes) : ∀ (n : Nat) (st : Trees),
    metaOf (execOps st k (List.replicate n (LOp.pushR v))) k =
      ((metaOf st k).1, ((metaOf st k).2 + n) % u32) := by
  intro n
  induction n with
  | zero =>
    intro st
    have hb := metaOf_lt st k
    show metaOf st k = ((metaOf st k).1, ((metaOf st k).2 + 0) % u32)
    have h2 : ((metaOf st k).2 + 0) % u32 = (metaOf st k).2 := by
      simp only [u32] at hb ⊢
      omega
    rw [h2]
  | succ m ih =>
    intro st
    rw [List.replicate_succ]
    have h1 : execOps st k (LOp.pushR v :: List.replicate m (LOp.pushR v)) =
        execOps (RPush1 st k v) k (List.replicate m (LOp.pushR v)) := rfl
    rw [h1, ih (RPush1 st k v), metaOf_RPush1]
    have hb := metaOf_lt st k
    refine Prod.ext_iff.mpr ⟨rfl, ?_⟩
    show (((metaOf st k).2 + 1) % u32 + m) % u32 = ((metaOf st k).2 + (m + 1)) % u32
    simp only [u32] at hb ⊢
    omega

/-- C3 counterexample: after 2^31 - 1 right pushes on a single key
(each one a reachable state transition), tailSeq has wrapped around the
32-bit space to 0 while headSeq is still 2^31, so tailSeq ≥ headSeq + 1
fails in this reachable state. -/
theorem C3_counterexample :
    metaOf (execOps [] [1] (List.replicate 2147483647 (LOp.pushR [7]))) [1] =
      (2147483648, 0) ∧
    ¬ ((metaOf (execOps [] [1] (List.replicate 2147483647 (LOp.pushR [7]))) [1]).1 + 1 ≤
        (metaOf (execOps [] [1] (List.replicate 2147483647 (LOp.pushR [7]))) [1]).2) := by
  have h := metaOf_rpush_replicate [1] [7] 2147483647 []
  constructor
  · rw [h]
    decide
  · rw [h]
    decide

/-- C3 amended: the fresh or absent list has the initial metadata
(headSeq 2^31, tailSeq 2^31+1), and for every sequence of pushes and
pops containing at most 2^31 - 2 pushes the reachable state satisfies
tailSeq ≥ headSeq + 1 with both sequences within p of their initial
values, and LLen returns tailSeq − headSeq − 1 ≥ 0; with more pushes
the 32-bit tailSeq/headSeq wrap around and the inequality can fail. -/
theorem C3_amended_meta_invariant (k : Bytes) (ops : List LOp)
    (hp : countPushes ops ≤ 2147483646) :
    metaOf [] k = (initialListSeq, initialListSeq + 1) ∧
    (metaOf (execOps [] k ops) k).1 + 1 ≤ (metaOf (execOps [] k ops) k).2 ∧
    2147483648 - countPushes ops ≤ (metaOf (execOps [] k ops) k).1 ∧
    (metaOf (execOps [] k ops) k).2 ≤ 2147483649 + countPushes ops ∧
    LLen (execOps [] k ops) k =
      ((metaOf (execOps [] k ops) k).2 : Int) - ((metaOf (execOps [] k ops) k).1 : Int) - 1 ∧
    0 ≤ LLen (execOps [] k ops) k := by
  have hbase : metaInv [] k 0 := by
    unfold metaInv
    have hm : metaOf ([] : Trees) k = (initialListSeq, initialListSeq + 1) := rfl
    rw [hm]
    unfold initialListSeq
    omega
  have hinv := metaInv_execOps k ops [] 0 hbase (by omega)
  simp only [Nat.zero_add] at hinv
  have hb := metaOf_lt (execOps [] k ops) k
  have hL := LLen_eq (execOps [] k ops) k
  unfold metaInv at hinv
  refine ⟨rfl, hinv.2.2, hinv.1, hinv.2.1, ?_, ?_⟩
  · rw [hL]
    simp only [u32] at hb ⊢
    omega
  · rw [hL]
    exact Int.ofNat_nonneg _

/-- C3 witness: a single left push satisfies the amended invariant. -/
theorem C3_amended_meta_invariant_witness :
    countPushes [LOp.pushL [5]] ≤ 2147483646 ∧
    (metaOf (execOps [] [1] [LOp.pushL [5]]) [1]).1 + 1 ≤
      (metaOf (execOps [] [1] [LOp.pushL [5]]) [1]).2 ∧
    0 ≤ LLen (execOps [] [1] [LOp.pushL [5]]) [1] :=
  ⟨by decide, (C3_amended_meta_invariant [1] [LOp.pushL [5]] (by decide)).2.1,
    (C3_amended_meta_invariant [1] [LOp.pushL [5]] (by decide)).2.2.2.2.2⟩

theorem bytesCompare_eq_iff : ∀ (a b : Bytes), bytesCompare a b = Ordering.eq ↔ a = b := by
  intro a
  induction a with
  | nil =>
    intro b
    cases b with
    | nil => simp [bytesCompare]
    | cons y ys => simp [bytesCompare]
  | cons x xs ih =>
    intro b
    cases b with
    | nil => simp [bytesCompare]
    | cons y ys =>
      simp only [bytesCompare]
      by_cases h1 : x < y
      · rw [if_pos h1]
        constructor
        · intro hc
          exact absurd hc (by decide)
        · intro hc
          injection hc with h2 h3
          omega
      · rw [if_neg h1]
        by_cases h2 : y < x
        · rw [if_pos h2]
          constructor
          · intro hc
            exact absurd hc (by decide)
          · intro hc
            injection hc with h3 h4
            omega
        · rw [if_neg h2]
          have hxy : x = y := by omega
          subst hxy
          rw [ih ys]
          constructor
          · intro hc
            rw [hc]
          · intro hc
            cases hc
            rfl

theorem bytesCompare_self (a : Bytes) : bytesCompare a a = Ordering.eq :=
  (bytesCompare_eq_iff a a).mpr rfl

theorem bytesCompare_swap : ∀ (a b : Bytes), bytesCompare a b = (bytesCompare b a).swap := by
  intro a
  induction a with
  | nil =>
    intro b
    cases b with
    | nil => rfl
    | cons y ys => rfl
  | cons x xs ih =>
    intro b
    cases b with
    | nil => rfl
    | cons y ys =>
      simp only [bytesCompare]
      rcases Nat.lt_trichotomy x y with h | h | h
      · rw [if_pos h, if_neg (by omega : ¬ y < x), if_pos h]
        rfl
      · subst h
        have hx : ¬ x < x := by omega
        rw [if_neg hx, if_neg hx, if_neg hx, if_neg hx]
        exact ih ys
      · rw [if_neg (by omega : ¬ x < y), if_pos h, if_pos h]
        rfl

theorem bytesCompare_gt_iff (a b : Bytes) :
    bytesCompare a b = Ordering.gt ↔ bytesCompare b a = Ordering.lt := by
  rw [bytesCompare_swap a b]
  cases bytesCompare b a <;> simp [Ordering.swap]

theorem bytesCompare_lt_trans : ∀ (a b c : Bytes), bytesCompare a b = Ordering.lt →
    bytesCompare b c = Ordering.lt → bytesCompare a c = Ordering.lt := by
  intro a
  induction a with
  | nil =>
    intro b c hab hbc
    cases c with
    | nil =>
      cases b with
      | nil => exact absurd hab (by decide)
      | cons y ys => exact absurd hbc (by simp [bytesCompare])
    | cons z zs => rfl
  | cons x xs ih =>
    intro b c hab hbc
    cases b with
    | nil => exact absurd hab (by simp [bytesCompare])
    | cons y ys =>
      cases c with
      | nil => exact absurd hbc (by simp [bytesCompare])
      | cons z zs =>
        simp only [bytesCompare] at hab hbc ⊢
        by_cases h1 : x < y
        · rw [if_pos h1] at hab
          by_cases h2 : y < z
          · rw [if_pos (by omega : x < z)]
          · rw [if_neg h2] at hbc
            by_cases h3 : z < y
            · rw [if_pos h3] at hbc
              exact absurd hbc (by decide)
            · rw [if_pos (by omega : x < z)]
        · rw [if_neg h1] at hab
          by_cases h2 : y < x
          · rw [if_pos h2] at hab
            exact absurd hab (by decide)
          · rw [if_neg h2] at hab
            have hxy : x = y := by omega
            subst hxy
            by_cases h3 : x < z
            · rw [if_pos h3]
            · rw [if_neg h3] at hbc ⊢
              by_cases h4 : z < x
              · rw [if_pos h4] at hbc
                exact absurd hbc (by decide)
              · rw [if_neg h4] at hbc ⊢
                exact ih ys zs hab hbc

theorem btGet_none_of_lt (k : Bytes) : ∀ (l : List (Bytes × ChunkPos)),
    (∀ e ∈ l, bytesCompare k e.1 = Ordering.lt) → btGet k l = none := by
  intro l
  induction l with
  | nil => intro h; rfl
  | cons hd t ih =>
    intro h
    obtain ⟨k2, p2⟩ := hd
    have h2 := h (k2, p2) (by simp)
    simp only [btGet]
    rw [if_neg (by rw [h2]; decide)]
    exact ih fun e he => h e (by simp [he])

theorem btPut_mem (k : Bytes) (p : ChunkPos) : ∀ (l : List (Bytes × ChunkPos)),
    ∀ e ∈ (btPut k p l).1, e.1 = k ∨ e ∈ l := by
  intro l
  induction l with
  | nil =>
    intro e he
    simp only [btPut, List.mem_singleton] at he
    subst he
    exact Or.inl rfl
  | cons hd t ih =>
    intro e he
    obtain ⟨k2, p2⟩ := hd
    simp only [btPut] at he
    cases hc : bytesCompare k k2 with
    | lt =>
      rw [hc] at he
      simp only [List.mem_cons] at he
      rcases he with he | he | he
      · subst he; exact Or.inl rfl
      · exact Or.inr (by simp [he])
      · exact Or.inr (by simp [he])
    | eq =>
      rw [hc] at he
      simp only [List.mem_cons] at he
      rcases he with he | he
      · subst he; exact Or.inl rfl
      · exact Or.inr (by simp [he])
    | gt =>
      rw [hc] at he
      simp only [List.mem_cons] at he
      rcases he with he | he
      · exact Or.inr (by simp [he])
      · rcases ih e he with h | h
        · exact Or.inl h
        · exact Or.inr (by simp [h])

theorem btPut_sorted (k : Bytes) (p : ChunkPos) : ∀ (l : List (Bytes × ChunkPos)),
    sortedBT l → sortedBT (btPut k p l).1 := by
  intro l
  induction l with
  | nil => intro _; simp [btPut, sortedBT]
  | cons hd t ih =>
    intro hs
    obtain ⟨k2, p2⟩ := hd
    unfold sortedBT at hs
    rw [List.pairwise_cons] at hs
    simp only [btPut]
    cases hc : bytesCompare k k2 with
    | lt =>
      unfold sortedBT
      rw [List.pairwise_cons]
      refine ⟨?_, List.pairwise_cons.mpr hs⟩
      intro e he
      simp only [List.mem_cons] at he
      rcases he with he | he
      · subst he; exact hc
      · exact bytesCompare_lt_trans _ _ _ hc (hs.1 e he)
    | eq =>
      unfold sortedBT
      rw [List.pairwise_cons]
      have hk : k = k2 := (bytesCompare_eq_iff k k2).mp hc
      exact ⟨fun e he => hk ▸ hs.1 e he, hs.2⟩
    | gt =>
      unfold sortedBT
      rw [List.pairwise_cons]
      refine ⟨?_, ih hs.2⟩
      intro e he
      rcases btPut_mem k p t e he with h | h
      · rw [h]
        exact (bytesCompare_gt_iff k k2).mp hc
      · exact hs.1 e h

theorem btPut_old (k : Bytes) (p : ChunkPos) : ∀ (l : List (Bytes × ChunkPos)),
    sortedBT l → (btPut k p l).2 = btGet k l := by
  intro l
  induction l with
  | nil => intro _; rfl
  | cons hd t ih =>
    intro hs
    obtain ⟨k2, p2⟩ := hd
    unfold sortedBT at hs
    rw [List.pairwise_cons] at hs
    simp only [btPut, btGet]
    cases hc : bytesCompare k k2 with
    | lt =>
      rw [if_neg (by decide : ¬ Ordering.lt = Ordering.eq)]
      exact (btGet_none_of_lt k t fun e he =>
        bytesCompare_lt_trans _ _ _ hc (hs.1 e he)).symm
    | eq =>
      rw [if_pos (rfl : Ordering.eq = Ordering.eq)]
    | gt =>
      rw [if_neg (by decide : ¬ Ordering.gt = Ordering.eq)]
      exact ih hs.2

theorem btGet_put_self (k : Bytes) (p : ChunkPos) : ∀ (l : List (Bytes × ChunkPos)),
    btGet k (btPut k p l).1 = some p := by
  intro l
  induction l with
  | nil => simp [btPut, btGet, bytesCompare_self]
  | cons hd t ih =>
    obtain ⟨k2, p2⟩ := hd
    simp only [btPut]
    cases hc : bytesCompare k k2 with
    | lt => simp [btGet, bytesCompare_self]
    | eq => simp [btGet, bytesCompare_self]
    | gt =>
      simp only [btGet]
      rw [if_neg (by rw [hc]; decide)]
      exact ih

theorem btGet_put_ne (k k2 : Bytes) (p : ChunkPos) (hne : k2 ≠ k) :
    ∀ (l : List (Bytes × ChunkPos)), btGet k2 (btPut k p l).1 = btGet k2 l := by
  have hne2 : bytesCompare k2 k ≠ Ordering.eq := fun hx =>
    hne ((bytesCompare_eq_iff k2 k).mp hx)
  intro l
  induction l with
  | nil =>
    simp only [btPut, btGet]
    rw [if_neg hne2]
  | cons hd t ih =>
    obtain ⟨k3, p3⟩ := hd
    simp only [btPut]
    cases hc : bytesCompare k k3 with
    | lt =>
      simp only [btGet]
      rw [if_neg hne2]
    | eq =>
      have hk : k = k3 := (bytesCompare_eq_iff k k3).mp hc
      simp only [btGet]
      rw [if_neg hne2, if_neg (by rw [← hk]; exact hne2)]
    | gt =>
      simp only [btGet]
      by_cases h3 : bytesCompare k2 k3 = Ordering.eq
      · rw [if_pos h3, if_pos h3]
      · rw [if_neg h3, if_neg h3]
        exact ih

theorem btDelete_ret (k : Bytes) : ∀ (l : List (Bytes × ChunkPos)),
    (btDelete k l).2.1 = btGet k l ∧ (btDelete k l).2.2 = (btGet k l).isSome := by
  intro l
  induction l with
  | nil => exact ⟨rfl, rfl⟩
  | cons hd t ih =>
    obtain ⟨k2, p2⟩ := hd
    simp only [btDelete, btGet]
    by_cases hc : bytesCompare k k2 = Ordering.eq
    · rw [if_pos hc, if_pos hc]
      exact ⟨rfl, rfl⟩
    · rw [if_neg hc, if_neg hc]
      exact ih

theorem btDelete_sublist (k : Bytes) : ∀ (l : List (Bytes × ChunkPos)),
    List.Sublist (btDelete k l).1 l := by
  intro l
  induction l with
  | nil => exact List.Sublist.refl []
  | cons hd t ih =>
    obtain ⟨k2, p2⟩ := hd
    simp only [btDelete]
    by_cases hc : bytesCompare k k2 = Ordering.eq
    · rw [if_pos hc]
      exact (List.Sublist.refl t).cons _
    · rw [if_neg hc]
      exact ih.cons₂ _

theorem btDelete_sorted (k : Bytes) (l : List (Bytes × ChunkPos)) (hs : sortedBT l) :
    sortedBT (btDelete k l).1 :=
  List.Pairwise.sublist (btDelete_sublist k l) hs

theorem btGet_delete_self (k : Bytes) : ∀ (l : List (Bytes × ChunkPos)),
    sortedBT l → btGet k (btDelete k l).1 = none := by
  intro l
  induction l with
  | nil => intro _; rfl
  | cons hd t ih =>
    intro hs
    obtain ⟨k2, p2⟩ := hd
    unfold sortedBT at hs
    rw [List.pairwise_cons] at hs
    simp only [btDelete]
    by_cases hc : bytesCompare k k2 = Ordering.eq
    · rw [if_pos hc]
      have hk : k = k2 := (bytesCompare_eq_iff k k2).mp hc
      exact btGet_none_of_lt k t fun e he => hk ▸ hs.1 e he
    · rw [if_neg hc]
      simp only [btGet]
      rw [if_neg hc]
      exact ih hs.2

theorem btGet_delete_ne (k k2 : Bytes) (hne : k2 ≠ k) : ∀ (l : List (Bytes × ChunkPos)),
    btGet k2 (btDelete k l).1 = btGet k2 l := by
  have hne2 : bytesCompare k2 k ≠ Ordering.eq := fun hx =>
    hne ((bytesCompare_eq_iff k2 k).mp hx)
  intro l
  induction l with
  | nil => rfl
  | cons hd t ih =>
    obtain ⟨k3, p3⟩ := hd
    simp only [btDelete]
    by_cases hc : bytesCompare k k3 = Ordering.eq
    · rw [if_pos hc]
      have hk : k = k3 := (bytesCompare_eq_iff k k3).mp hc
      simp only [btGet]
      rw [if_neg (by rw [← hk]; exact hne2)]
    · rw [if_neg hc]
      simp only [btGet]
      by_cases h3 : bytesCompare k2 k3 = Ordering.eq
      · rw [if_pos h3, if_pos h3]
      · rw [if_neg h3, if_neg h3]
        exact ih

theorem btAscend_takeWhile (f : Bytes → ChunkPos → Bool) :
    ∀ (l : List (Bytes × ChunkPos)),
    btAscend f l = l.takeWhile (fun e => f e.1 e.2) ++
      (l.drop (l.takeWhile (fun e => f e.1 e.2)).length).take 1 := by
  intro l
  induction l with
  | nil => rfl
  | cons hd t ih =>
    obtain ⟨k, p⟩ := hd
    simp only [btAscend]
    by_cases hf : f k p = true
    · rw [if_pos hf]
      have ht : ((k, p) :: t).takeWhile (fun e => f e.1 e.2) =
          (k, p) :: t.takeWhile (fun e => f e.1 e.2) := by
        rw [List.takeWhile_cons]
        simp [hf]
      rw [ht]
      simp only [List.cons_append, List.length_cons, List.drop_succ_cons]
      rw [ih]
    · rw [if_neg hf]
      have ht : ((k, p) :: t).takeWhile (fun e => f e.1 e.2) = [] := by
        rw [List.takeWhile_cons]
        simp [hf]
      rw [ht]
      rfl

theorem btAscend_true (l : List (Bytes × ChunkPos)) :
    btAscend (fun _ _ => true) l = l := by
  induction l with
  | nil => rfl
  | cons hd t ih =>
    obtain ⟨k, p⟩ := hd
    simp only [btAscend, if_true]
    rw [ih]

theorem btAscend_front (f : Bytes → ChunkPos → Bool) :
    ∀ (l : List (Bytes × ChunkPos)), List.IsPrefix (btAscend f l) l := by
  intro l
  induction l with
  | nil => exact List.nil_prefix
  | cons hd t ih =>
    obtain ⟨k, p⟩ := hd
    simp only [btAscend]
    by_cases hf : f k p = true
    · rw [if_pos hf]
      exact List.cons_prefix_cons.mpr ⟨rfl, ih⟩
    · rw [if_neg hf]
      exact List.cons_prefix_cons.mpr ⟨rfl, List.nil_prefix⟩

theorem btPut_comm (k1 k2 : Bytes) (p1 p2 : ChunkPos) (hne : k1 ≠ k2) :
    ∀ (l : List (Bytes × ChunkPos)),
    (btPut k1 p1 (btPut k2 p2 l).1).1 = (btPut k2 p2 (btPut k1 p1 l).1).1 := by
  intro l
  induction l with
  | nil =>
    cases h12 : bytesCompare k1 k2 with
    | lt =>
      have h21 : bytesCompare k2 k1 = Ordering.gt := (bytesCompare_gt_iff k2 k1).mpr h12
      simp only [btPut, h12, h21]
    | eq => exact absurd ((bytesCompare_eq_iff k1 k2).mp h12) hne
    | gt =>
      have h21 : bytesCompare k2 k1 = Ordering.lt := (bytesCompare_gt_iff k1 k2).mp h12
      simp only [btPut, h12, h21]
  | cons hd t ih =>
    obtain ⟨k3, p3⟩ := hd
    cases hc13 : bytesCompare k1 k3 with
    | lt =>
      cases hc23 : bytesCompare k2 k3 with
      | lt =>
        cases h12 : bytesCompare k1 k2 with
        | lt =>
          have h21 : bytesCompare k2 k1 = Ordering.gt := (bytesCompare_gt_iff k2 k1).mpr h12
          simp only [btPut, hc13, hc23, h12, h21]
        | eq => exact absurd ((bytesCompare_eq_iff k1 k2).mp h12) hne
        | gt =>
          have h21 : bytesCompare k2 k1 = Ordering.lt := (bytesCompare_gt_iff k1 k2).mp h12
          simp only [btPut, hc13, hc23, h12, h21]
      | eq =>
        have h23 : k2 = k3 := (bytesCompare_eq_iff k2 k3).mp hc23
        subst h23
        have h21 : bytesCompare k2 k1 = Ordering.gt := (bytesCompare_gt_iff k2 k1).mpr hc13
        simp only [btPut, bytesCompare_self, hc13, h21]
      | gt =>
        have h32 : bytesCompare k3 k2 = Ordering.lt := (bytesCompare_gt_iff k2 k3).mp hc23
        have h12 : bytesCompare k1 k2 = Ordering.lt := bytesCompare_lt_trans _ _ _ hc13 h32
        have h21 : bytesCompare k2 k1 = Ordering.gt := (bytesCompare_gt_iff k2 k1).mpr h12
        simp only [btPut, hc13, hc23, h21]
    | eq =>
      have h13 : k1 = k3 := (bytesCompare_eq_iff k1 k3).mp hc13
      subst h13
      cases hc23 : bytesCompare k2 k1 with
      | lt =>
        have h12 : bytesCompare k1 k2 = Ordering.gt := (bytesCompare_gt_iff k1 k2).mpr hc23
        simp only [btPut, bytesCompare_self, hc23, h12]
      | eq => exact absurd ((bytesCompare_eq_iff k2 k1).mp hc23).symm hne
      | gt => simp only [btPut, bytesCompare_self, hc23]
    | gt =>
      cases hc23 : bytesCompare k2 k3 with
      | lt =>
        have h31 : bytesCompare k3 k1 = Ordering.lt := (bytesCompare_gt_iff k1 k3).mp hc13
        have h21 : bytesCompare k2 k1 = Ordering.lt := bytesCompare_lt_trans _ _ _ hc23 h31
        have h12 : bytesCompare k1 k2 = Ordering.gt := (bytesCompare_gt_iff k1 k2).mpr h21
        simp only [btPut, hc13, hc23, h12]
      | eq =>
        have h23 : k2 = k3 := (bytesCompare_eq_iff k2 k3).mp hc23
        subst h23
        simp only [btPut, bytesCompare_self, hc13]
      | gt =>
        simp only [btPut, hc13, hc23]
        rw [ih]

theorem applyPuts_perm (ops1 ops2 : List (Bytes × ChunkPos)) (hperm : ops1.Perm ops2)
    (hnd : (ops1.map Prod.fst).Nodup) : applyPuts ops1 = applyPuts ops2 := by
  unfold applyPuts
  refine hperm.foldl_eq' ?_ []
  intro x hx y hy z
  by_cases hxy : x = y
  · rw [hxy]
  · have hpw : List.Pairwise (fun a b : Bytes × ChunkPos => a.1 ≠ b.1) ops1 := by
      rw [← List.pairwise_map]
      exact hnd
    have hsym : Symmetric (fun a b : Bytes × ChunkPos => a.1 ≠ b.1) :=
      fun a b h heq => h heq.symm
    have hne : x.1 ≠ y.1 := List.Pairwise.forall hsym hpw hx hy hxy
    exact btPut_comm y.1 x.1 y.2 x.2 (Ne.symm hne) z

theorem sortedBT_nodup_keys (l : List (Bytes × ChunkPos)) (hs : sortedBT l) :
    (l.map Prod.fst).Nodup := by
  show List.Pairwise (fun a b => a ≠ b) (l.map Prod.fst)
  rw [List.pairwise_map]
  refine hs.imp ?_
  intro a b hlt heq
  rw [heq, bytesCompare_self] at hlt
  exact absurd hlt (by decide)

theorem btAscend_pairwise (f : Bytes → ChunkPos → Bool) (l : List (Bytes × ChunkPos))
    (hs : sortedBT l) :
    List.Pairwise (fun a b => bytesCompare a.1 b.1 = Ordering.lt) (btAscend f l) :=
  List.Pairwise.sublist (btAscend_front f l).sublist hs

theorem btDescend_pairwise (f : Bytes → ChunkPos → Bool) (l : List (Bytes × ChunkPos))
    (hs : sortedBT l) :
    List.Pairwise (fun a b => bytesCompare a.1 b.1 = Ordering.gt) (btDescend f l) := by
  have hrev : List.Pairwise (fun a b => bytesCompare a.1 b.1 = Ordering.gt) l.reverse := by
    rw [List.pairwise_reverse]
    exact hs.imp fun h => (bytesCompare_gt_iff _ _).mpr h
  exact List.Pairwise.sublist (btAscend_front f l.reverse).sublist hrev

/-- C9: the string index is an ordered map on raw byte keys: Put stores
the position and returns the previous one, Get reads it back and other
keys are untouched, Delete returns the removed position and whether the
key existed and removes exactly that key, both preserving sortedness;
Ascend visits the entries in ascending lexicographic order (all of them
when the callback always answers true, stopping right after the entry
on which it answers false), Descend the same in descending order; and
the map built by a sequence of Puts with distinct keys is independent
of the insertion order. -/
theorem C9_string_index_ordered_map :
    (∀ (l : List (Bytes × ChunkPos)) (k : Bytes) (p : ChunkPos), sortedBT l →
      (btPut k p l).2 = btGet k l ∧
      btGet k (btPut k p l).1 = some p ∧
      sortedBT (btPut k p l).1 ∧
      (∀ k2, k2 ≠ k → btGet k2 (btPut k p l).1 = btGet k2 l)) ∧
    (∀ (l : List (Bytes × ChunkPos)) (k : Bytes), sortedBT l →
      (btDelete k l).2.1 = btGet k l ∧
      (btDelete k l).2.2 = (btGet k l).isSome ∧
      sortedBT (btDelete k l).1 ∧
      btGet k (btDelete k l).1 = none ∧
      (∀ k2, k2 ≠ k → btGet k2 (btDelete k l).1 = btGet k2 l)) ∧
    (∀ (l : List (Bytes × ChunkPos)) (f : Bytes → ChunkPos → Bool),
      btAscend f l = l.takeWhile (fun e => f e.1 e.2) ++
        (l.drop (l.takeWhile (fun e => f e.1 e.2)).length).take 1 ∧
      btAscend (fun _ _ => true) l = l ∧
      btDescend (fun _ _ => true) l = l.reverse) ∧
    (∀ (l : List (Bytes × ChunkPos)) (f : Bytes → ChunkPos → Bool), sortedBT l →
      (l.map Prod.fst).Nodup ∧
      List.Pairwise (fun a b => bytesCompare a.1 b.1 = Ordering.lt) (btAscend f l) ∧
      List.Pairwise (fun a b => bytesCompare a.1 b.1 = Ordering.gt) (btDescend f l)) ∧
    (∀ (ops1 ops2 : List (Bytes × ChunkPos)), ops1.Perm ops2 →
      (ops1.map Prod.fst).Nodup → applyPuts ops1 = applyPuts ops2) := by
  refine ⟨fun l k p hs => ⟨btPut_old k p l hs, btGet_put_self k p l, btPut_sorted k p l hs,
      fun k2 h2 => btGet_put_ne k k2 p h2 l⟩,
    fun l k hs => ⟨(btDelete_ret k l).1, (btDelete_ret k l).2, btDelete_sorted k l hs,
      btGet_delete_self k l hs, fun k2 h2 => btGet_delete_ne k k2 h2 l⟩,
    fun l f => ⟨btAscend_takeWhile f l, btAscend_true l, btAscend_true l.reverse⟩,
    fun l f hs => ⟨sortedBT_nodup_keys l hs, btAscend_pairwise f l hs,
      btDescend_pairwise f l hs⟩,
    applyPuts_perm⟩

/-- C9 witness: a concrete sorted two-entry index exercising the
operations, and a two-element permutation of Puts. -/
theorem C9_string_index_ordered_map_witness :
    sortedBT [([1], ChunkPos.mk 1 0 10), ([3], ChunkPos.mk 2 8 5)] ∧
    btGet [2] (btPut [2] (ChunkPos.mk 4 4 4)
      [([1], ChunkPos.mk 1 0 10), ([3], ChunkPos.mk 2 8 5)]).1 = some (ChunkPos.mk 4 4 4) ∧
    btGet [3] (btDelete [3]
      [([1], ChunkPos.mk 1 0 10), ([3], ChunkPos.mk 2 8 5)]).1 = none ∧
    btAscend (fun _ _ => true)
      [([1], ChunkPos.mk 1 0 10), ([3], ChunkPos.mk 2 8 5)] =
      [([1], ChunkPos.mk 1 0 10), ([3], ChunkPos.mk 2 8 5)] ∧
    applyPuts [([1], ChunkPos.mk 1 0 10), ([3], ChunkPos.mk 2 8 5)] =
      applyPuts [([3], ChunkPos.mk 2 8 5), ([1], ChunkPos.mk 1 0 10)] :=
  ⟨by unfold sortedBT; decide,
    (C9_string_index_ordered_map.1 [([1], ChunkPos.mk 1 0 10), ([3], ChunkPos.mk 2 8 5)]
      [2] (ChunkPos.mk 4 4 4) (by unfold sortedBT; decide)).2.1,
    (C9_string_index_ordered_map.2.1 [([1], ChunkPos.mk 1 0 10), ([3], ChunkPos.mk 2 8 5)]
      [3] (by unfold sortedBT; decide)).2.2.2.1,
    (C9_string_index_ordered_map.2.2.1 [([1], ChunkPos.mk 1 0 10), ([3], ChunkPos.mk 2 8 5)]
      (fun _ _ => true)).2.1,
    C9_string_index_ordered_map.2.2.2.2 _ _
      (List.Perm.swap ([3], ChunkPos.mk 2 8 5) ([1], ChunkPos.mk 1 0 10) [])
      (by decide)⟩
